import Mathlib

/-
  A shallow embedding of the migo intermediate representation
  (package `migo`, files `migo.go` and `migoutil/simplify.go`).

  Go structs become Lean structures, the `Statement` interface becomes a
  closed inductive family, pointer mutation becomes explicit state
  passing (a `Program` is its list of functions; writing through a
  `*Function` pointer becomes updating the first function of that name
  in the list), and `go/token.Position` is modelled by its `Line` field,
  the only part the code reads (`noPosition` has line 0).
-/

namespace Migo

/-- A caller-to-callee parameter binding (`Parameter` in migo.go);
`NamedVar` values are modelled by their `Name()` string. -/
structure Parameter where
  Caller : String
  Callee : String

/-- The closed `Statement` variant family of migo.go.  Each variant that
carries a `Pos token.Position` in Go carries its line number here. -/
inductive Statement where
  | call (name : String) (params : List Parameter) (pos : Nat)
  | close (chan : String) (pos : Nat)
  | spawn (name : String) (params : List Parameter) (pos : Nat)
  | newChan (name : String) (chan : String) (size : Int) (pos : Nat)
  | ifS (thenB : List Statement) (elseB : List Statement)
  | ifFor (forCond : String) (thenB : List Statement) (elseB : List Statement)
  | selectS (cases : List (List Statement)) (pos : Nat)
  | tau
  | send (chan : String) (pos : Nat)
  | recv (chan : String) (pos : Nat)
  | newMem (name : String) (pos : Nat)
  | memRead (name : String) (pos : Nat)
  | memWrite (name : String) (pos : Nat)
  | newSyncMutex (name : String) (pos : Nat)
  | syncMutexLock (name : String) (pos : Nat)
  | syncMutexUnlock (name : String) (pos : Nat)
  | newSyncRWMutex (name : String) (pos : Nat)
  | syncRWMutexRLock (name : String) (pos : Nat)
  | syncRWMutexRUnlock (name : String) (pos : Nat)

/-- `Function` of migo.go: name, parameters, body, the `HasComm` flag and
the source position (line).  The private `stack` and `varIdx` fields are
not touched by any operation modelled here. -/
structure Function where
  Name : String
  Params : List Parameter
  Stmts : List Statement
  HasComm : Bool
  Pos : Nat

/-- `Program` of migo.go: the ordered list of function definitions. -/
structure Program where
  Funcs : List Function

/-- `Program.AddFunction`: appends `f` unless a function of the same name
is already registered (first registration wins). -/
def Program.AddFunction (p : Program) (f : Function) : Program :=
  if p.Funcs.any (fun g => g.Name = f.Name) then p
  else ⟨p.Funcs ++ [f]⟩

/-- `Program.Function`: first function with the given name, mirroring the
linear scan in migo.go (the Go version also returns a success flag,
which is the `Option`). -/
def lookupFunc : List Function → String → Option Function
  | [], _ => none
  | f :: fs, n => if f.Name = n then some f else lookupFunc fs n

/-- `Program.Function` as a method on `Program`. -/
def Program.Function (p : Program) (name : String) : Option Function :=
  lookupFunc p.Funcs name

/-- The character-level action of the `strings.NewReplacer` value
`nameFilter` in migo.go: `(`, `)`, `*`, `"` and `-` are deleted and `/`
is replaced by `_` (all patterns are single distinct characters, so the
replacer acts independently on each character). -/
def filteredChar (c : Char) : List Char :=
  if c = '(' ∨ c = ')' ∨ c = '*' ∨ c = '"' ∨ c = '-' then []
  else if c = '/' then ['_'] else [c]

/-- `nameFilter.Replace` on a character list. -/
def nameFilterRun : List Char → List Char
  | [] => []
  | c :: rest => filteredChar c ++ nameFilterRun rest

/-- `nameFilter.Replace` on a string. -/
def nameFilter (s : String) : String := ⟨nameFilterRun s.data⟩

/-- `Function.SimpleName`: the function name passed through `nameFilter`. -/
def Function.SimpleName (f : Function) : String := nameFilter f.Name

/-- `hasComm` of migo.go: scans a batch in order; Send/Recv/Close/Select/
NewChan decide `true` at once, If/IfFor and Call/Spawn decide immediately
(branch recursion resp. `len(Params) > 0`), everything else is skipped. -/
def hasComm : List Statement → Bool
  | [] => false
  | Statement.send _ _ :: _ => true
  | Statement.recv _ _ :: _ => true
  | Statement.close _ _ :: _ => true
  | Statement.selectS _ _ :: _ => true
  | Statement.newChan _ _ _ _ :: _ => true
  | Statement.ifS t e :: _ => hasComm t || hasComm e
  | Statement.ifFor _ t e :: _ => hasComm t || hasComm e
  | Statement.call _ ps _ :: _ => decide (0 < ps.length)
  | Statement.spawn _ ps _ :: _ => decide (0 < ps.length)
  | _ :: rest => hasComm rest

/-- Is the last statement of the sequence a `*TauStatement`? -/
def lastIsTau (l : List Statement) : Bool :=
  match l.getLast? with
  | some Statement.tau => true
  | _ => false

/-- `Function.AddStmts`: when the body has more than one statement and
ends in `Tau`, the batch is appended with no `HasComm` reclassification;
otherwise a communicating batch latches `HasComm` to true. -/
def Function.AddStmts (f : Function) (stmts : List Statement) : Function :=
  if decide (1 < f.Stmts.length) && lastIsTau f.Stmts then
    { f with Stmts := f.Stmts ++ stmts }
  else if !f.HasComm && hasComm stmts then
    { f with HasComm := true, Stmts := f.Stmts ++ stmts }
  else
    { f with Stmts := f.Stmts ++ stmts }

/-- `Function.IsEmpty`: true when the body is empty. -/
def Function.IsEmpty (f : Function) : Bool := f.Stmts.isEmpty

/-- `CalleeParameterString`: callee-side names, comma separated. -/
def CalleeParameterString : List Parameter → String
  | [] => ""
  | p :: ps => ps.foldl (fun acc q => acc ++ ", " ++ q.Callee) p.Callee

/-- `CallerParameterString`: caller-side names, comma separated. -/
def CallerParameterString : List Parameter → String
  | [] => ""
  | p :: ps => ps.foldl (fun acc q => acc ++ ", " ++ q.Caller) p.Caller

mutual

/-- The `String()` method of each `Statement` variant of migo.go.  Note
that `send`/`recv`/`close` print their channel label verbatim while
`call`/`spawn`/`newChan` and the memory and lock statements pass names
through `nameFilter`. -/
def stmtString : Statement → String
  | Statement.call name params _ =>
      "call " ++ nameFilter name ++ "(" ++ CallerParameterString params ++ ")"
  | Statement.close chan _ => "close " ++ chan
  | Statement.spawn name params _ =>
      "spawn " ++ nameFilter name ++ "(" ++ CallerParameterString params ++ ")"
  | Statement.newChan name chan size _ =>
      "let " ++ name ++ " = newchan " ++ nameFilter chan ++ ", " ++ toString size
  | Statement.ifS t e => "if " ++ stmtsSeqString t ++ "else " ++ stmtsSeqString e ++ "endif"
  | Statement.ifFor c t e =>
      "ifFor (int " ++ c ++ ") then " ++ stmtsSeqString t ++ "else " ++ stmtsSeqString e ++ "endif"
  | Statement.selectS cases _ => "select" ++ casesString cases ++ "\n    endselect"
  | Statement.tau => "tau"
  | Statement.send chan _ => "send " ++ chan
  | Statement.recv chan _ => "recv " ++ chan
  | Statement.newMem name _ => "letmem " ++ name
  | Statement.memRead name _ => "read " ++ nameFilter name
  | Statement.memWrite name _ => "write " ++ nameFilter name
  | Statement.newSyncMutex name _ => "letsync " ++ name ++ " mutex"
  | Statement.syncMutexLock name _ => "lock " ++ nameFilter name
  | Statement.syncMutexUnlock name _ => "unlock " ++ nameFilter name
  | Statement.newSyncRWMutex name _ => "letsync " ++ name ++ " rwmutex"
  | Statement.syncRWMutexRLock name _ => "rlock " ++ nameFilter name
  | Statement.syncRWMutexRUnlock name _ => "runlock " ++ nameFilter name

/-- Branch bodies inside `if`/`ifFor`: each statement followed by `"; "`. -/
def stmtsSeqString : List Statement → String
  | [] => ""
  | s :: rest => stmtString s ++ "; " ++ stmtsSeqString rest

/-- One `select` case body: each statement preceded by a space, then `;`. -/
def caseString : List Statement → String
  | [] => ""
  | s :: rest => " " ++ stmtString s ++ ";" ++ caseString rest

/-- All `select` cases, each on a fresh `"\n      case"` line. -/
def casesString : List (List Statement) → String
  | [] => ""
  | c :: rest => "\n      case" ++ caseString c ++ casesString rest

end

/-- The statement loop of the `String()` method of `Function`:
`"    %s;\n"` per statement. -/
def bodyString : List Statement → String
  | [] => ""
  | s :: rest => "    " ++ stmtString s ++ ";\n" ++ bodyString rest

/-- The `String()` method on `Function`: header, then—if the body is
empty—`AddStmts` of a single `Tau` (a mutation of the receiver, returned
here as the second component), then one indented line per statement.
(Named `FunctionString` because a declaration called `Function.String`
would shadow the `String` type inside later `Function` methods.) -/
def FunctionString (f : Function) : String × Function :=
  let header := "def " ++ f.SimpleName ++ "(" ++ CalleeParameterString f.Params ++ "):\n"
  let f' := if f.Stmts.isEmpty then f.AddStmts [Statement.tau] else f
  (header ++ bodyString f'.Stmts, f')

/-- The name filter as §4.3 of the spec words it: parentheses, asterisks,
path separators, quote characters and hyphens are all `stripped`
(removed).  Stated from the spec, for comparison against `nameFilter`,
which the source defines with `/` replaced by `_` instead. -/
def specStripName (s : String) : String :=
  ⟨s.data.filter (fun c => !(c = '(' || c = ')' || c = '*' || c = '"' || c = '-' || c = '/'))⟩

/-- The memo map `known` of `findEmptyFunc`: function name to the
`HasComm` value recorded for it. -/
abbrev Known := List (String × Bool)

/-- Go map read `known[n]`: first binding wins (later bindings are
shadowed by `knownSet`, which conses). -/
def klook : Known → String → Option Bool
  | [], _ => none
  | (k, v) :: rest, n => if k = n then some v else klook rest n

/-- Go map write `known[k] = v`, by shadowing. -/
def knownSet (known : Known) (k : String) (v : Bool) : Known := (k, v) :: known

/-- Writing `f.HasComm = b` through the pointer `f`: update the first
function of that name in the program's list (the one `Program.Function`
returns), leave everything else untouched. -/
def setHasComm : List Function → String → Bool → List Function
  | [], _, _ => []
  | f :: fs, n, b =>
    if f.Name = n then { f with HasComm := b } :: fs else f :: setHasComm fs n b

/-- The `switch` of `findEmptyFunc`: only `CallStatement` and
`SpawnStatement` contribute a call-graph edge, by target name. -/
def stmtTarget : Statement → Option String
  | Statement.call name _ _ => some name
  | Statement.spawn name _ _ => some name
  | _ => none

/-- The statement loop of `findEmptyFunc`, one iteration per statement of
the body captured at entry.  `rec` is the recursive entry into
`findEmptyFunc` for a not-yet-known child; the `Bool` component is the
running value of `f.HasComm`, written back into the program and into
`known[f.Name]` after every resolved edge, exactly as the Go loop does.
The two `none` fallbacks after a successful recursion are unreachable
(the analysis never removes a function). -/
def femStmts (rec : List Function → Known → String → Option (List Function × Known))
    (fname : String) :
    List Function → Known → Bool → List Statement → Option (List Function × Known × Bool)
  | p, known, cur, [] => some (p, known, cur)
  | p, known, cur, s :: rest =>
    match stmtTarget s with
    | none => femStmts rec fname p known cur rest
    | some name =>
      match lookupFunc p name with
      | none => femStmts rec fname p known cur rest
      | some child =>
        match klook known child.Name with
        | some hc =>
          femStmts rec fname (setHasComm p fname (cur || hc))
            (knownSet known fname (cur || hc)) (cur || hc) rest
        | none =>
          match rec p known name with
          | none => none
          | some (p2, known2) =>
            match lookupFunc p2 name with
            | none => none
            | some child2 =>
              femStmts rec fname (setHasComm p2 fname (cur || child2.HasComm))
                (knownSet known2 fname (cur || child2.HasComm)) (cur || child2.HasComm) rest

/-- `Program.findEmptyFunc` of migo.go, given enough fuel: a function
already in `known` is not re-entered; otherwise it is recorded under its
current `HasComm` and its statements are scanned for call/spawn edges.
The Go original recurses unboundedly; the fuel only models the call
stack, and any fuel larger than the number of functions is enough
(proved below). -/
def findEmptyFunc : Nat → List Function → Known → String → Option (List Function × Known)
  | 0, _, _, _ => none
  | fuel + 1, p, known, fname =>
    if (klook known fname).isSome then some (p, known)
    else
      match lookupFunc p fname with
      | none => some (p, known)
      | some f =>
        match femStmts (findEmptyFunc fuel) fname p
            (knownSet known fname f.HasComm) f.HasComm f.Stmts with
        | none => none
        | some (p2, known2, _) => some (p2, known2)

/-- `Program.findEmptyFuncMain`: run `findEmptyFunc` from the root with a
fresh memo map, then unconditionally mark the root communicating. -/
def findEmptyFuncMain (fuel : Nat) (p : List Function) (fname : String) :
    Option (List Function) :=
  match findEmptyFunc fuel p [] fname with
  | none => none
  | some (p2, _) => some (setHasComm p2 fname true)

/-- Number of functions of the program not yet recorded in the memo map:
the quantity the analysis strictly decreases when it enters a function. -/
def unknownCount (p : List Function) (known : Known) : Nat :=
  (p.filter (fun f => (klook known f.Name).isNone)).length

/-- Pointwise evolution of one function under the analysis: everything
but `HasComm` is fixed, and `HasComm` can only go from false to true. -/
def funcLE (f g : Function) : Prop :=
  g.Name = f.Name ∧ g.Params = f.Params ∧ g.Stmts = f.Stmts ∧ g.Pos = f.Pos ∧
    (f.HasComm = true → g.HasComm = true)

/-- Pointwise evolution of the whole program under the analysis. -/
def funcsLE (p q : List Function) : Prop := List.Forall₂ funcLE p q

/-- The contract that each recursive entry of the analysis satisfies:
the program evolves pointwise monotonically, the memo map only grows,
and the entry of every function already memoized is left untouched. -/
def AnalysisInv (rec : List Function → Known → String → Option (List Function × Known)) :
    Prop :=
  ∀ p known fname p2 known2, rec p known fname = some (p2, known2) →
    funcsLE p p2 ∧
    (∀ n, (klook known n).isSome = true → (klook known2 n).isSome = true) ∧
    (∀ n, (klook known n).isSome = true → lookupFunc p2 n = lookupFunc p n)

/-- The termination bound of one analysis entry: with more fuel than
there are not-yet-memoized functions, the run completes. -/
def AnalysisDom (N : Nat)
    (rec : List Function → Known → String → Option (List Function × Known)) : Prop :=
  ∀ p known fname, unknownCount p known < N → (rec p known fname).isSome = true

/-- The `Position()` method of each `Statement` variant: its line number,
except that `IfStatement`, `IfForStatement` and `TauStatement` report
`noPosition` (line 0). -/
def stmtPos : Statement → Nat
  | Statement.call _ _ pos => pos
  | Statement.close _ pos => pos
  | Statement.spawn _ _ pos => pos
  | Statement.newChan _ _ _ pos => pos
  | Statement.ifS _ _ => 0
  | Statement.ifFor _ _ _ => 0
  | Statement.selectS _ pos => pos
  | Statement.tau => 0
  | Statement.send _ pos => pos
  | Statement.recv _ pos => pos
  | Statement.newMem _ pos => pos
  | Statement.memRead _ pos => pos
  | Statement.memWrite _ pos => pos
  | Statement.newSyncMutex _ pos => pos
  | Statement.syncMutexLock _ pos => pos
  | Statement.syncMutexUnlock _ pos => pos
  | Statement.newSyncRWMutex _ pos => pos
  | Statement.syncRWMutexRLock _ pos => pos
  | Statement.syncRWMutexRUnlock _ pos => pos

/-- `Properties` of migo.go: a map from source line number to annotation
strings, modelled as an association list with unique keys (the keys the
Go map holds). -/
def Properties := List (Nat × List String)

/-- `Properties.GetProperties`: read the annotations of a line (missing
key gives the empty slice) and delete that key — read-once semantics.
Returns the annotations and the shrunken registry. -/
def Properties.GetProperties (ps : Properties) (line : Nat) :
    List String × Properties :=
  ((List.lookup line ps).getD [],
   List.filter (fun kv => decide (kv.1 ≠ line)) ps)

/-- `Properties.Values`: all annotation strings still in the registry. -/
def Properties.Values (ps : Properties) : List String :=
  List.foldr (fun (kv : Nat × List String) acc => kv.2 ++ acc) [] ps

/-- `Properties.IsEmpty`: no keys left. -/
def Properties.IsEmpty (ps : Properties) : Bool := List.isEmpty ps

/-- The per-function annotation lines: `"%s\n"` for each property. -/
def propLines (props : List String) : String :=
  props.foldr (fun s acc => s ++ "\n" ++ acc) ""

/-- The per-statement annotation lines: `"    %s\n"` for each property. -/
def stmtPropLines (props : List String) : String :=
  props.foldr (fun s acc => "    " ++ s ++ "\n" ++ acc) ""

/-- The statement loop of `Function.PrintWithProperties`: consume the
annotations of each statement's line, emit them, then the statement. -/
def stmtsWithProps : List Statement → Properties → String × Properties
  | [], ps => ("", ps)
  | s :: rest, ps =>
    let gp := ps.GetProperties (stmtPos s)
    let tail := stmtsWithProps rest gp.2
    (stmtPropLines gp.1 ++ "    " ++ stmtString s ++ ";\n" ++ tail.1, tail.2)

/-- `Function.PrintWithProperties`: annotations of the function's line,
header, then the statement loop; an empty body is materialized to `Tau`
first (the same `AddStmts` mutation as `Function.String`). -/
def Function.PrintWithProperties (f : Function) (ps : Properties) :
    String × Function × Properties :=
  let gp := ps.GetProperties f.Pos
  let header := "def " ++ f.SimpleName ++ "(" ++ CalleeParameterString f.Params ++ "):\n"
  let f2 := if f.Stmts.isEmpty then f.AddStmts [Statement.tau] else f
  let body := stmtsWithProps f2.Stmts gp.2
  (propLines gp.1 ++ header ++ body.1, f2, body.2)

/-- The reserved root name `"main".main` of migo. -/
def mainName : String := "\"main\".main"

/-- The loop of `Program.PrintWithProperties`: render every function
whose filtered name is not `main.main` and does not start with one of
the excluded runtime prefixes, threading the annotation registry. -/
def printLoop : List Function → Properties → String × Properties
  | [], ps => ("", ps)
  | f :: rest, ps =>
    if decide (f.SimpleName ≠ "main.main") && !(f.SimpleName.startsWith "os") &&
       !(f.SimpleName.startsWith "syscall") && !(f.SimpleName.startsWith "internal_poll") &&
       !(f.SimpleName.startsWith "sync.o") then
      let r := f.PrintWithProperties ps
      let tail := printLoop rest r.2.2
      (r.1 ++ tail.1, tail.2)
    else printLoop rest ps

/-- `Program.PrintWithProperties`: the root is looked up with the success
flag discarded and rendered first (a missing root dereferences a nil
pointer and crashes the process — the `none` result); then every
non-excluded function; finally, a non-empty registry is a
`log.Fatalf` with the remaining values — the `Except.error` result. -/
def Program.PrintWithProperties (p : Program) (ps : Properties) :
    Option (Except (List String) String) :=
  match lookupFunc p.Funcs mainName with
  | none => none
  | some mainF =>
    let r := mainF.PrintWithProperties ps
    let rest := printLoop p.Funcs r.2.2
    if (Properties.IsEmpty rest.2) = true then some (Except.ok (r.1 ++ rest.1))
    else some (Except.error (Properties.Values rest.2))

/-- The annotation registry left after a full annotated render. -/
def annotatedRemainder (p : Program) (ps : Properties) (mainF : Function) :
    Properties :=
  (printLoop p.Funcs (mainF.PrintWithProperties ps).2.2).2

/-- Does this top-level statement's call/spawn target (if any) resolve
against the given function names? -/
def stmtResolved (names : List String) (s : Statement) : Bool :=
  match stmtTarget s with
  | some n => names.contains n
  | none => true

/-- No top-level call/spawn statement of any function of the program is
dead (targets a name with no definition). -/
def noDeadCalls (p : Program) : Bool :=
  p.Funcs.all (fun f => f.Stmts.all (stmtResolved (p.Funcs.map (fun g => g.Name))))

/-- Modelled from the spec: the tau-function reduction pass lives in
`internal/passes/taufunc`, outside this source tree.  Per §4.4/§6.82: a
trivial function — one whose entire observable behavior is equivalent to
inaction, modelled as a body made only of `Tau` statements (the empty
body included) — is deleted unless the exclusion strategy keeps it, and
every call/spawn site that targeted a deleted function is rewritten to a
`Tau` statement in place (call/spawn sites are modelled at the top level
of a body, where migo.go itself reads its call-graph edges). -/
def isTauBody (f : Function) : Bool :=
  f.Stmts.all (fun s => match s with | Statement.tau => true | _ => false)

/-- Modelled from the spec: rewrite call/spawn sites aimed at a removed
trivial function into `Tau`. -/
def rewriteTauCalls (victims : List String) (stmts : List Statement) : List Statement :=
  stmts.map (fun s => match stmtTarget s with
    | some n => if victims.contains n then Statement.tau else s
    | none => s)

/-- Modelled from the spec: `taufunc.Find` applied with a strategy that
tells which function names to keep regardless of triviality. -/
def taufuncFind (p : Program) (keep : String → Bool) : Program :=
  let victims := (p.Funcs.filter (fun f => !keep f.Name && isTauBody f)).map (fun f => f.Name)
  ⟨(p.Funcs.filter (fun f => !victims.contains f.Name)).map
     (fun f => { f with Stmts := rewriteTauCalls victims f.Stmts })⟩

/-- Modelled from the spec: `taufunc.Remove`, the strategy that excludes
nothing. -/
def taufuncRemove : String → Bool := fun _ => false

/-- Modelled from the spec: `taufunc.RemoveExcept`, the strategy that
keeps the named root. -/
def taufuncRemoveExcept (root : String) : String → Bool := fun n => decide (n = root)

/-- Top-level call/spawn targets of a function. -/
def funcTargets (f : Function) : List String := f.Stmts.filterMap stmtTarget

/-- One expansion step of the call/spawn reachability closure. -/
def reachStep (p : Program) (names : List String) : List String :=
  p.Funcs.foldl (fun acc f => if names.contains f.Name then acc ++ funcTargets f else acc)
    names

/-- Iterated reachability closure. -/
def reachIter (p : Program) : Nat → List String → List String
  | 0, names => names
  | k + 1, names => reachIter p k (reachStep p names)

/-- Names reachable from the root via call/spawn edges. -/
def reachable (p : Program) (root : String) : List String :=
  reachIter p p.Funcs.length [root]

/-- Modelled from the spec: `unused.Remove` (`internal/passes/unused`,
outside this source tree): delete every function not reachable from the
root via call/spawn edges. -/
def unusedRemove (p : Program) (root : String) : Program :=
  ⟨p.Funcs.filter (fun f => (reachable p root).contains f.Name)⟩

/-- Modelled from the spec: `deadcall.Remove` (`internal/passes/deadcall`,
outside this source tree): delete every call/spawn statement whose
target name is absent from the program's function set. -/
def deadcallRemove (p : Program) : Program :=
  ⟨p.Funcs.map (fun f =>
    { f with Stmts := f.Stmts.filter (stmtResolved (p.Funcs.map (fun g => g.Name))) })⟩

/-- `SimplifyProgram` of migoutil/simplify.go: with a root named
`"main".main` present, tau-reduction excluding the root then
unused-function removal from the root; without one, tau-reduction with
no exclusions and no unused-function pass; dead-call removal always runs
last. -/
def SimplifyProgram (p : Program) : Program :=
  match lookupFunc p.Funcs mainName with
  | some _ =>
      deadcallRemove (unusedRemove (taufuncFind p (taufuncRemoveExcept mainName)) mainName)
  | none => deadcallRemove (taufuncFind p taufuncRemove)

/-- Characters produced by `filteredChar` avoid the five filtered
character classes and the path separator. -/
lemma filteredChar_clean (a c : Char) (hc : c ∈ filteredChar a) :
    c ≠ '(' ∧ c ≠ ')' ∧ c ≠ '*' ∧ c ≠ '"' ∧ c ≠ '-' ∧ c ≠ '/' := by
  unfold filteredChar at hc
  split at hc
  · simp at hc
  · split at hc
    · simp at hc
      subst hc
      decide
    · next h1 h2 =>
      simp at hc
      subst hc
      push_neg at h1
      exact ⟨h1.1, h1.2.1, h1.2.2.1, h1.2.2.2.1, h1.2.2.2.2, h2⟩

/-- Characters surviving `nameFilterRun` avoid the filtered classes. -/
lemma nameFilterRun_clean (l : List Char) (c : Char) (hc : c ∈ nameFilterRun l) :
    c ≠ '(' ∧ c ≠ ')' ∧ c ≠ '*' ∧ c ≠ '"' ∧ c ≠ '-' ∧ c ≠ '/' := by
  induction l with
  | nil => simp [nameFilterRun] at hc
  | cons a rest ih =>
    simp only [nameFilterRun, List.mem_append] at hc
    rcases hc with h | h
    · exact filteredChar_clean a c h
    · exact ih h

lemma funcLE_refl (f : Function) : funcLE f f := ⟨rfl, rfl, rfl, rfl, fun h => h⟩

lemma funcLE_trans {f g h : Function} (h1 : funcLE f g) (h2 : funcLE g h) : funcLE f h :=
  ⟨h2.1.trans h1.1, h2.2.1.trans h1.2.1, h2.2.2.1.trans h1.2.2.1,
   h2.2.2.2.1.trans h1.2.2.2.1, fun hc => h2.2.2.2.2 (h1.2.2.2.2 hc)⟩

lemma funcsLE_refl (p : List Function) : funcsLE p p := by
  induction p with
  | nil => exact List.Forall₂.nil
  | cons f fs ih => exact List.Forall₂.cons (funcLE_refl f) ih

lemma funcsLE_trans : ∀ {p q r : List Function}, funcsLE p q → funcsLE q r → funcsLE p r := by
  intro p q r h1
  induction h1 generalizing r with
  | nil => intro h2; cases h2; exact List.Forall₂.nil
  | cons hfg _ ih =>
    intro h2
    cases h2 with
    | cons hgh htail => exact List.Forall₂.cons (funcLE_trans hfg hgh) (ih htail)

lemma lookupFunc_funcsLE : ∀ {p q : List Function}, funcsLE p q → ∀ (n : String),
    (lookupFunc p n = none → lookupFunc q n = none) ∧
    (∀ f, lookupFunc p n = some f → ∃ g, lookupFunc q n = some g ∧ funcLE f g) := by
  intro p q h
  induction h with
  | nil => exact fun n => ⟨fun _ => rfl, fun f hf => by simp [lookupFunc] at hf⟩
  | cons hfg htail ih =>
    rename_i f g p2 q2
    intro n
    constructor
    · intro hnone
      simp only [lookupFunc] at hnone ⊢
      rw [hfg.1]
      by_cases hc : f.Name = n
      · rw [if_pos hc] at hnone; exact absurd hnone (by simp)
      · rw [if_neg hc] at hnone; rw [if_neg hc]; exact (ih n).1 hnone
    · intro f0 hsome
      simp only [lookupFunc] at hsome ⊢
      rw [hfg.1]
      by_cases hc : f.Name = n
      · rw [if_pos hc] at hsome
        rw [if_pos hc]
        cases hsome
        exact ⟨g, rfl, hfg⟩
      · rw [if_neg hc] at hsome; rw [if_neg hc]; exact (ih n).2 f0 hsome

lemma setHasComm_eq_of_none : ∀ {p : List Function} {n : String} (b : Bool),
    lookupFunc p n = none → setHasComm p n b = p := by
  intro p
  induction p with
  | nil => intro n b _; rfl
  | cons g rest ih =>
    intro n b hnone
    simp only [lookupFunc] at hnone
    by_cases hc : g.Name = n
    · rw [if_pos hc] at hnone; exact absurd hnone (by simp)
    · rw [if_neg hc] at hnone
      simp only [setHasComm, if_neg hc]
      rw [ih b hnone]

lemma lookupFunc_setHasComm_self : ∀ {p : List Function} {n : String} {f : Function} (b : Bool),
    lookupFunc p n = some f →
    lookupFunc (setHasComm p n b) n = some { f with HasComm := b } := by
  intro p
  induction p with
  | nil => intro n f b h; simp [lookupFunc] at h
  | cons g rest ih =>
    intro n f b h
    simp only [lookupFunc] at h
    by_cases hc : g.Name = n
    · rw [if_pos hc] at h
      cases h
      simp only [setHasComm, if_pos hc, lookupFunc]
    · rw [if_neg hc] at h
      simp only [setHasComm, if_neg hc, lookupFunc]
      exact ih b h

lemma lookupFunc_setHasComm_other : ∀ {p : List Function} {n m : String} (b : Bool),
    m ≠ n → lookupFunc (setHasComm p n b) m = lookupFunc p m := by
  intro p
  induction p with
  | nil => intro n m b _; rfl
  | cons g rest ih =>
    intro n m b hne
    by_cases hc : g.Name = n
    · simp only [setHasComm, if_pos hc, lookupFunc]
      have hgm : g.Name ≠ m := fun h => hne (h.symm.trans hc)
      rw [if_neg hgm, if_neg hgm]
    · simp only [setHasComm, if_neg hc, lookupFunc]
      by_cases hm : g.Name = m
      · rw [if_pos hm, if_pos hm]
      · rw [if_neg hm, if_neg hm]; exact ih b hne

lemma funcsLE_setHasComm : ∀ {p : List Function} {n : String} {b : Bool},
    (∀ f, lookupFunc p n = some f → f.HasComm = true → b = true) →
    funcsLE p (setHasComm p n b) := by
  intro p
  induction p with
  | nil => intro n b _; exact List.Forall₂.nil
  | cons g rest ih =>
    intro n b h
    by_cases hc : g.Name = n
    · simp only [setHasComm, if_pos hc]
      refine List.Forall₂.cons ⟨rfl, rfl, rfl, rfl, ?_⟩ (funcsLE_refl rest)
      intro hg
      exact h g (by simp only [lookupFunc, if_pos hc]) hg
    · simp only [setHasComm, if_neg hc]
      refine List.Forall₂.cons (funcLE_refl g) (ih ?_)
      intro f hf hcomm
      exact h f (by simp only [lookupFunc, if_neg hc]; exact hf) hcomm

lemma klook_knownSet (known : Known) (k : String) (v : Bool) (n : String) :
    klook (knownSet known k v) n = if k = n then some v else klook known n := rfl

lemma klook_knownSet_isSome {known : Known} {n : String} (k : String) (v : Bool)
    (h : (klook known n).isSome = true) :
    (klook (knownSet known k v) n).isSome = true := by
  rw [klook_knownSet]
  split
  · rfl
  · exact h

lemma namesEq_funcsLE : ∀ {p q : List Function}, funcsLE p q →
    q.map Function.Name = p.map Function.Name := by
  intro p q h
  induction h with
  | nil => rfl
  | cons hfg _ ih => simp only [List.map_cons]; rw [hfg.1, ih]

lemma names_setHasComm : ∀ (p : List Function) (n : String) (b : Bool),
    (setHasComm p n b).map Function.Name = p.map Function.Name := by
  intro p n b
  induction p with
  | nil => rfl
  | cons g rest ih =>
    by_cases hc : g.Name = n
    · simp only [setHasComm, if_pos hc, List.map_cons]
    · simp only [setHasComm, if_neg hc, List.map_cons, ih]

lemma unknownCount_names : ∀ (p : List Function) (known : Known),
    unknownCount p known =
      ((p.map Function.Name).filter (fun n => (klook known n).isNone)).length := by
  intro p known
  induction p with
  | nil => rfl
  | cons f rest ih =>
    simp only [unknownCount, List.map_cons, List.filter_cons] at *
    by_cases hc : (klook known f.Name).isNone = true
    · simp [hc, ih]
    · simp [hc, ih]

lemma filterNames_mono : ∀ (ns : List String) {known known2 : Known},
    (∀ n, (klook known n).isSome = true → (klook known2 n).isSome = true) →
    (ns.filter (fun n => (klook known2 n).isNone)).length ≤
      (ns.filter (fun n => (klook known n).isNone)).length := by
  intro ns known known2 hk
  induction ns with
  | nil => simp
  | cons a rest ih =>
    by_cases h2 : (klook known2 a).isNone = true
    · have h1 : (klook known a).isNone = true := by
        cases hx : klook known a with
        | none => rfl
        | some v =>
          have hs := hk a (by rw [hx]; rfl)
          rw [Option.isNone_iff_eq_none] at h2
          rw [h2] at hs
          simp at hs
      simp [List.filter_cons, h2, h1]
      omega
    · by_cases h1 : (klook known a).isNone = true
      · simp [List.filter_cons, h2, h1]
        omega
      · simp [List.filter_cons, h2, h1]
        exact ih

lemma unknownCount_mono {p q : List Function} {known known2 : Known}
    (hn : q.map Function.Name = p.map Function.Name)
    (hk : ∀ n, (klook known n).isSome = true → (klook known2 n).isSome = true) :
    unknownCount q known2 ≤ unknownCount p known := by
  rw [unknownCount_names, unknownCount_names, hn]
  exact filterNames_mono _ hk

lemma unknownCount_knownSet_lt : ∀ {p : List Function} {known : Known} {fname : String}
    {f : Function} (v : Bool),
    lookupFunc p fname = some f → klook known fname = none →
    unknownCount p (knownSet known fname v) < unknownCount p known := by
  intro p known fname f v hlf hkn
  induction p with
  | nil => simp [lookupFunc] at hlf
  | cons g rest ih =>
    simp only [lookupFunc] at hlf
    by_cases hg : g.Name = fname
    · have hOld : (klook known g.Name).isNone = true := by rw [hg, hkn]; rfl
      have hNew : (klook (knownSet known fname v) g.Name).isNone = false := by
        rw [hg, klook_knownSet, if_pos rfl]; rfl
      simp only [unknownCount, List.filter_cons, hOld, hNew, if_true, if_false,
        Bool.false_eq_true, List.length_cons]
      have hle : unknownCount rest (knownSet known fname v) ≤ unknownCount rest known :=
        unknownCount_mono rfl (fun n h => klook_knownSet_isSome fname v h)
      simp only [unknownCount] at hle
      omega
    · rw [if_neg hg] at hlf
      have hrec := ih hlf
      have hsame : klook (knownSet known fname v) g.Name = klook known g.Name := by
        rw [klook_knownSet, if_neg (fun h => hg h.symm)]
      simp only [unknownCount, List.filter_cons, hsame] at *
      by_cases hc : (klook known g.Name).isNone = true
      · simp only [hc, if_true, List.length_cons]; omega
      · simp only [hc, if_false]; exact hrec

lemma femStmts_inv (rec : List Function → Known → String → Option (List Function × Known))
    (hrec : AnalysisInv rec) (fname : String) :
    ∀ (stmts : List Statement) (p : List Function) (known : Known) (cur : Bool)
      (p2 : List Function) (known2 : Known) (cur2 : Bool),
      (klook known fname).isSome = true →
      (∀ f, lookupFunc p fname = some f → f.HasComm = true → cur = true) →
      femStmts rec fname p known cur stmts = some (p2, known2, cur2) →
      funcsLE p p2 ∧
      (∀ n, (klook known n).isSome = true → (klook known2 n).isSome = true) ∧
      (∀ n, n ≠ fname → (klook known n).isSome = true →
        lookupFunc p2 n = lookupFunc p n) := by
  intro stmts
  induction stmts with
  | nil =>
    intro p known cur p2 known2 cur2 hkf hstored heq
    simp only [femStmts, Option.some.injEq, Prod.mk.injEq] at heq
    obtain ⟨h1, h2, h3⟩ := heq
    subst h1; subst h2
    exact ⟨funcsLE_refl p, fun n h => h, fun n _ _ => rfl⟩
  | cons s rest ih =>
    intro p known cur p2 known2 cur2 hkf hstored heq
    simp only [femStmts] at heq
    cases hts : stmtTarget s with
    | none =>
      simp only [hts] at heq
      exact ih p known cur p2 known2 cur2 hkf hstored heq
    | some name =>
      simp only [hts] at heq
      cases hlf : lookupFunc p name with
      | none =>
        simp only [hlf] at heq
        exact ih p known cur p2 known2 cur2 hkf hstored heq
      | some child =>
        simp only [hlf] at heq
        cases hkc : klook known child.Name with
        | some hc =>
          simp only [hkc] at heq
          have hstored2 : ∀ f, lookupFunc (setHasComm p fname (cur || hc)) fname = some f →
              f.HasComm = true → (cur || hc) = true := by
            intro f hf hcm
            cases hpf : lookupFunc p fname with
            | none => rw [setHasComm_eq_of_none _ hpf, hpf] at hf; simp at hf
            | some f0 =>
              rw [lookupFunc_setHasComm_self _ hpf] at hf
              cases hf
              exact hcm
          have ihres := ih (setHasComm p fname (cur || hc)) (knownSet known fname (cur || hc))
            (cur || hc) p2 known2 cur2 (by simp [klook_knownSet]) hstored2 heq
          refine ⟨?_, ?_, ?_⟩
          · refine funcsLE_trans (funcsLE_setHasComm ?_) ihres.1
            intro f hf hcm
            rw [hstored f hf hcm]
            simp
          · exact fun n h => ihres.2.1 n (klook_knownSet_isSome _ _ h)
          · intro n hne h
            exact (ihres.2.2 n hne (klook_knownSet_isSome _ _ h)).trans
              (lookupFunc_setHasComm_other _ hne)
        | none =>
          simp only [hkc] at heq
          cases hrc : rec p known name with
          | none => simp only [hrc] at heq; exact absurd heq (by simp)
          | some pr =>
            obtain ⟨pR, kR⟩ := pr
            simp only [hrc] at heq
            obtain ⟨hLE, hdom, hpres⟩ := hrec p known name pR kR hrc
            cases hlf2 : lookupFunc pR name with
            | none => simp only [hlf2] at heq; exact absurd heq (by simp)
            | some child2 =>
              simp only [hlf2] at heq
              have hstored2 : ∀ f,
                  lookupFunc (setHasComm pR fname (cur || child2.HasComm)) fname = some f →
                  f.HasComm = true → (cur || child2.HasComm) = true := by
                intro f hf hcm
                have hpn : lookupFunc pR fname = lookupFunc p fname := hpres fname hkf
                cases hpf : lookupFunc pR fname with
                | none => rw [setHasComm_eq_of_none _ hpf, hpf] at hf; simp at hf
                | some f0 =>
                  rw [lookupFunc_setHasComm_self _ hpf] at hf
                  cases hf
                  exact hcm
              have ihres := ih (setHasComm pR fname (cur || child2.HasComm))
                (knownSet kR fname (cur || child2.HasComm)) (cur || child2.HasComm)
                p2 known2 cur2 (by simp [klook_knownSet]) hstored2 heq
              refine ⟨?_, ?_, ?_⟩
              · refine funcsLE_trans hLE (funcsLE_trans (funcsLE_setHasComm ?_) ihres.1)
                intro f hf hcm
                rw [hpres fname hkf] at hf
                rw [hstored f hf hcm]
                simp
              · exact fun n h => ihres.2.1 n (klook_knownSet_isSome _ _ (hdom n h))
              · intro n hne h
                calc lookupFunc p2 n
                    = lookupFunc (setHasComm pR fname (cur || child2.HasComm)) n :=
                      ihres.2.2 n hne (klook_knownSet_isSome _ _ (hdom n h))
                  _ = lookupFunc pR n := lookupFunc_setHasComm_other _ hne
                  _ = lookupFunc p n := hpres n h

lemma findEmptyFunc_inv : ∀ fuel, AnalysisInv (findEmptyFunc fuel) := by
  intro fuel
  induction fuel with
  | zero =>
    intro p known fname p2 known2 heq
    simp [findEmptyFunc] at heq
  | succ fuel ih =>
    intro p known fname p2 known2 heq
    simp only [findEmptyFunc] at heq
    by_cases hk : (klook known fname).isSome = true
    · rw [if_pos hk] at heq
      simp only [Option.some.injEq, Prod.mk.injEq] at heq
      obtain ⟨h1, h2⟩ := heq
      subst h1; subst h2
      exact ⟨funcsLE_refl p, fun n h => h, fun n _ => rfl⟩
    · rw [if_neg hk] at heq
      cases hlf : lookupFunc p fname with
      | none =>
        simp only [hlf] at heq
        simp only [Option.some.injEq, Prod.mk.injEq] at heq
        obtain ⟨h1, h2⟩ := heq
        subst h1; subst h2
        exact ⟨funcsLE_refl p, fun n h => h, fun n _ => rfl⟩
      | some f =>
        simp only [hlf] at heq
        cases hfs : femStmts (findEmptyFunc fuel) fname p
            (knownSet known fname f.HasComm) f.HasComm f.Stmts with
        | none => simp only [hfs] at heq; exact absurd heq (by simp)
        | some t =>
          obtain ⟨pF, kF, cF⟩ := t
          simp only [hfs] at heq
          simp only [Option.some.injEq, Prod.mk.injEq] at heq
          obtain ⟨h1, h2⟩ := heq
          subst h1; subst h2
          have hstored : ∀ f0, lookupFunc p fname = some f0 →
              f0.HasComm = true → f.HasComm = true := by
            intro f0 hf0 hcm
            rw [hlf] at hf0
            cases hf0
            exact hcm
          have hin := femStmts_inv (findEmptyFunc fuel) ih fname f.Stmts p
            (knownSet known fname f.HasComm) f.HasComm pF kF cF
            (by simp [klook_knownSet]) hstored hfs
          refine ⟨hin.1, ?_, ?_⟩
          · exact fun n h => hin.2.1 n (klook_knownSet_isSome _ _ h)
          · intro n h
            have hne : n ≠ fname := by
              intro he
              subst he
              exact hk h
            exact hin.2.2 n hne (klook_knownSet_isSome _ _ h)

lemma femStmts_success (rec : List Function → Known → String → Option (List Function × Known))
    (hrec : AnalysisInv rec) (N : Nat) (hdom : AnalysisDom N rec) (fname : String) :
    ∀ (stmts : List Statement) (p : List Function) (known : Known) (cur : Bool),
      unknownCount p known < N →
      (femStmts rec fname p known cur stmts).isSome = true := by
  intro stmts
  induction stmts with
  | nil => intro p known cur _; rfl
  | cons s rest ih =>
    intro p known cur hcount
    simp only [femStmts]
    cases hts : stmtTarget s with
    | none => exact ih p known cur hcount
    | some name =>
      cases hlf : lookupFunc p name with
      | none =>
        simp only [hlf]
        exact ih p known cur hcount
      | some child =>
        simp only [hlf]
        cases hkc : klook known child.Name with
        | some hc =>
          simp only [hkc]
          apply ih
          have hle : unknownCount (setHasComm p fname (cur || hc))
              (knownSet known fname (cur || hc)) ≤ unknownCount p known :=
            unknownCount_mono (names_setHasComm p fname (cur || hc))
              (fun n h => klook_knownSet_isSome _ _ h)
          omega
        | none =>
          simp only [hkc]
          have hs : (rec p known name).isSome = true := hdom p known name hcount
          obtain ⟨pr, hrc⟩ := Option.isSome_iff_exists.mp hs
          obtain ⟨pR, kR⟩ := pr
          simp only [hrc]
          obtain ⟨hLE, hdom2, _⟩ := hrec p known name pR kR hrc
          obtain ⟨child2, hlf2, _⟩ := (lookupFunc_funcsLE hLE name).2 child hlf
          simp only [hlf2]
          apply ih
          have hle1 : unknownCount (setHasComm pR fname (cur || child2.HasComm))
              (knownSet kR fname (cur || child2.HasComm)) ≤ unknownCount pR kR :=
            unknownCount_mono (names_setHasComm pR fname (cur || child2.HasComm))
              (fun n h => klook_knownSet_isSome _ _ h)
          have hle2 : unknownCount pR kR ≤ unknownCount p known :=
            unknownCount_mono (namesEq_funcsLE hLE) hdom2
          omega

lemma findEmptyFunc_success : ∀ fuel, AnalysisDom fuel (findEmptyFunc fuel) := by
  intro fuel
  induction fuel with
  | zero => intro p known fname h; exact absurd h (Nat.not_lt_zero _)
  | succ fuel ih =>
    intro p known fname hcount
    simp only [findEmptyFunc]
    by_cases hk : (klook known fname).isSome = true
    · rw [if_pos hk]; rfl
    · rw [if_neg hk]
      cases hlf : lookupFunc p fname with
      | none => rfl
      | some f =>
        have hkn : klook known fname = none := by
          cases hx : klook known fname with
          | none => rfl
          | some v => exact absurd (by rw [hx]; rfl) hk
        have hlt : unknownCount p (knownSet known fname f.HasComm) < fuel := by
          have := unknownCount_knownSet_lt f.HasComm hlf hkn
          omega
        have hs := femStmts_success (findEmptyFunc fuel) (findEmptyFunc_inv fuel) fuel ih
          fname f.Stmts p (knownSet known fname f.HasComm) f.HasComm hlt
        obtain ⟨t, hfs⟩ := Option.isSome_iff_exists.mp hs
        obtain ⟨pF, kF, cF⟩ := t
        simp [hfs]

/-- C1: when the current body has more than one statement and ends in
`Tau`, `AddStmts` appends the batch without re-classifying `HasComm`
(so a communicating batch leaves `HasComm` unchanged); in every other
configuration with `HasComm = false`, a communicating batch latches
`HasComm` to true. -/
theorem c1_trailing_tau_skips_reclassification :
    ∀ (f : Function) (stmts : List Statement),
      (1 < f.Stmts.length → lastIsTau f.Stmts = true →
        (f.AddStmts stmts).HasComm = f.HasComm ∧
        (f.AddStmts stmts).Stmts = f.Stmts ++ stmts) ∧
      (f.HasComm = false →
        (decide (1 < f.Stmts.length) && lastIsTau f.Stmts) = false →
        hasComm stmts = true →
        (f.AddStmts stmts).HasComm = true) := by
  intro f stmts
  constructor
  · intro hlen htau
    have hcond : (decide (1 < f.Stmts.length) && lastIsTau f.Stmts) = true := by
      simp [hlen, htau]
    simp [Function.AddStmts, hcond]
  · intro hcomm hcond hbatch
    simp [Function.AddStmts, hcond, hcomm, hbatch]

/-- C1 witness: `[read x, tau]` plus a `send` keeps `HasComm = false`,
while `[read x]` plus the same `send` sets it to true. -/
theorem c1_witness :
    (Function.AddStmts ⟨"f", [], [Statement.memRead "x" 1, Statement.tau], false, 0⟩
      [Statement.send "c" 2]).HasComm = false ∧
    (Function.AddStmts ⟨"f", [], [Statement.memRead "x" 1], false, 0⟩
      [Statement.send "c" 2]).HasComm = true :=
  ⟨((c1_trailing_tau_skips_reclassification
      ⟨"f", [], [Statement.memRead "x" 1, Statement.tau], false, 0⟩
      [Statement.send "c" 2]).1 (by decide) rfl).1,
   (c1_trailing_tau_skips_reclassification
      ⟨"f", [], [Statement.memRead "x" 1], false, 0⟩
      [Statement.send "c" 2]).2 rfl rfl (by simp [hasComm])⟩

/-- C5 counterexample: the source filter does not strip the path
separator, it rewrites it to an underscore (`"a/b"` renders as `"a_b"`,
not as the stripped `"ab"`), and the channel label of a `send` statement
is rendered verbatim, hyphen included. -/
theorem c5_counterexample :
    Function.SimpleName ⟨"a/b", [], [], false, 0⟩ = "a_b" ∧
    specStripName "a/b" = "ab" ∧
    ("a_b" : String) ≠ "ab" ∧
    stmtString (Statement.send "a-b" 0) = "send a-b" ∧
    '-' ∈ (stmtString (Statement.send "a-b" 0)).data :=
  ⟨rfl, rfl, by decide, rfl, by decide⟩

/-- C5 amended: every name passed through the filter (as `SimpleName`
does for function names) has parentheses, asterisks, quote characters
and hyphens stripped and path separators replaced by underscores, so the
filtered identifier contains none of those five characters (channel
labels of `send`/`recv`/`close` are rendered verbatim and are not
covered). -/
theorem c5_filtered_names_contain_no_banned_chars :
    ∀ (f : Function) (c : Char), c ∈ f.SimpleName.data →
      c ≠ '(' ∧ c ≠ ')' ∧ c ≠ '*' ∧ c ≠ '"' ∧ c ≠ '-' ∧ c ≠ '/' := by
  intro f c hc
  exact nameFilterRun_clean f.Name.data c hc

/-- C5 witness: the underscore in the rendering of `"a/b"`. -/
theorem c5_witness :
    '_' ≠ '(' ∧ '_' ≠ ')' ∧ '_' ≠ '*' ∧ '_' ≠ '"' ∧ '_' ≠ '-' ∧ '_' ≠ '/' :=
  c5_filtered_names_contain_no_banned_chars ⟨"a/b", [], [], false, 0⟩ '_' (by decide)

/-- C8: rendering a function with an empty body materializes one `Tau`
statement into it (so `IsEmpty` becomes false on the returned function),
and a parameterless function named `f` prints exactly
`def f():\n    tau;\n`. -/
theorem c8_empty_function_renders_tau :
    ∀ (f : Function), f.Stmts = [] →
      ((FunctionString f).2.Stmts = [Statement.tau] ∧ (FunctionString f).2.IsEmpty = false) ∧
      (f.Name = "f" → f.Params = [] →
        (FunctionString f).1 = "def f():\n    tau;\n") := by
  intro f hempty
  refine ⟨⟨?_, ?_⟩, ?_⟩
  · simp [FunctionString, Function.AddStmts, lastIsTau, hasComm, hempty]
  · simp [FunctionString, Function.AddStmts, lastIsTau, hasComm, Function.IsEmpty, hempty]
  · intro hn hp
    simp [FunctionString, Function.AddStmts, lastIsTau, hasComm, hempty, hn, hp,
      Function.SimpleName, CalleeParameterString, bodyString, stmtString, nameFilter,
      nameFilterRun, filteredChar]

/-- C8 witness: the concrete empty function named `f`. -/
theorem c8_witness :
    ((FunctionString ⟨"f", [], [], false, 0⟩).2.Stmts = [Statement.tau] ∧
     (FunctionString ⟨"f", [], [], false, 0⟩).2.IsEmpty = false) ∧
    (FunctionString ⟨"f", [], [], false, 0⟩).1 = "def f():\n    tau;\n" :=
  ⟨(c8_empty_function_renders_tau ⟨"f", [], [], false, 0⟩ rfl).1,
   (c8_empty_function_renders_tau ⟨"f", [], [], false, 0⟩ rfl).2 rfl rfl⟩

/-- C9: `AddFunction` ignores a function whose name is already
registered (first registration wins), appends a fresh name at the end
(preserving registration order), and is idempotent. -/
theorem c9_addfunction_first_registration_wins :
    ∀ (p : Program) (f : Function),
      ((∃ g ∈ p.Funcs, g.Name = f.Name) → p.AddFunction f = p) ∧
      ((∀ g ∈ p.Funcs, g.Name ≠ f.Name) →
        (p.AddFunction f).Funcs = p.Funcs ++ [f]) ∧
      (p.AddFunction f).AddFunction f = p.AddFunction f := by
  intro p f
  refine ⟨?_, ?_, ?_⟩
  · rintro ⟨g, hg, hname⟩
    have hmem : (p.Funcs.any fun g => g.Name = f.Name) = true :=
      List.any_eq_true.mpr ⟨g, hg, by simp [hname]⟩
    simp [Program.AddFunction, hmem]
  · intro hall
    have hmem : (p.Funcs.any fun g => g.Name = f.Name) = false := by
      rw [Bool.eq_false_iff]
      intro hany
      obtain ⟨g, hg, hgn⟩ := List.any_eq_true.mp hany
      exact hall g hg (by simpa using hgn)
    simp [Program.AddFunction, hmem]
  · by_cases hmem : (p.Funcs.any fun g => g.Name = f.Name) = true
    · simp [Program.AddFunction, hmem]
    · rw [Bool.not_eq_true] at hmem
      have h1 : p.AddFunction f = ⟨p.Funcs ++ [f]⟩ := by
        simp [Program.AddFunction, hmem]
      rw [h1]
      have hmem2 : ((p.Funcs ++ [f]).any fun g => g.Name = f.Name) = true :=
        List.any_eq_true.mpr ⟨f, by simp, by simp⟩
      simp [Program.AddFunction, hmem2]

/-- C2 counterexample: in the program with `E` calling `Y` then `D`,
`Y` calling `E`, and `D` (which directly contains a `send`, and whose
`HasComm` is already true) calling `Y`, the functions `Y`, `E`, `D` form
a call cycle `Y → E → D → Y`, `Y` is reachable from the root `E`, and
`Y` transitively calls the directly-communicating `D`; yet after the
root-driven analysis from `E`, `Y` ends with `HasComm = false`: the memo
returned a stale `false` for `E` while `E` was still being processed. -/
theorem c2_counterexample_stale_memo_on_cycle :
    (findEmptyFuncMain 5
      [⟨"E", [], [Statement.call "Y" [] 0, Statement.call "D" [] 0], false, 0⟩,
       ⟨"Y", [], [Statement.call "E" [] 0], false, 0⟩,
       ⟨"D", [], [Statement.send "c" 0, Statement.call "Y" [] 0], true, 0⟩] "E").bind
      (fun q => (lookupFunc q "Y").map (fun g => g.HasComm)) = some false ∧
    (lookupFunc
      [⟨"E", [], [Statement.call "Y" [] 0, Statement.call "D" [] 0], false, 0⟩,
       ⟨"Y", [], [Statement.call "E" [] 0], false, 0⟩,
       ⟨"D", [], [Statement.send "c" 0, Statement.call "Y" [] 0], true, 0⟩]
      "E").map (fun g => g.Stmts.filterMap stmtTarget) = some ["Y", "D"] ∧
    (lookupFunc
      [⟨"E", [], [Statement.call "Y" [] 0, Statement.call "D" [] 0], false, 0⟩,
       ⟨"Y", [], [Statement.call "E" [] 0], false, 0⟩,
       ⟨"D", [], [Statement.send "c" 0, Statement.call "Y" [] 0], true, 0⟩]
      "Y").map (fun g => g.Stmts.filterMap stmtTarget) = some ["E"] ∧
    (lookupFunc
      [⟨"E", [], [Statement.call "Y" [] 0, Statement.call "D" [] 0], false, 0⟩,
       ⟨"Y", [], [Statement.call "E" [] 0], false, 0⟩,
       ⟨"D", [], [Statement.send "c" 0, Statement.call "Y" [] 0], true, 0⟩]
      "D").map (fun g => g.Stmts.filterMap stmtTarget) = some ["Y"] ∧
    (lookupFunc
      [⟨"E", [], [Statement.call "Y" [] 0, Statement.call "D" [] 0], false, 0⟩,
       ⟨"Y", [], [Statement.call "E" [] 0], false, 0⟩,
       ⟨"D", [], [Statement.send "c" 0, Statement.call "Y" [] 0], true, 0⟩]
      "D").map (fun g => g.HasComm) = some true ∧
    (lookupFunc
      [⟨"E", [], [Statement.call "Y" [] 0, Statement.call "D" [] 0], false, 0⟩,
       ⟨"Y", [], [Statement.call "E" [] 0], false, 0⟩,
       ⟨"D", [], [Statement.send "c" 0, Statement.call "Y" [] 0], true, 0⟩]
      "D").map (fun g => g.Stmts) =
      some [Statement.send "c" 0, Statement.call "Y" [] 0] :=
  ⟨rfl, rfl, rfl, rfl, rfl, rfl⟩

/-- C2 amended: after `findEmptyFuncMain` the root's `HasComm` is true
unconditionally, and no function's `HasComm` is ever lowered (it only
flips false to true); but — unlike the claim — a function reachable from
the root that only communicates transitively through a call cycle may
end with `HasComm = false` (see the counterexample). -/
theorem c2_root_forced_true_and_hascomm_monotone :
    ∀ (fuel : Nat) (p p2 : List Function) (fname : String) (f : Function),
      findEmptyFuncMain fuel p fname = some p2 →
      lookupFunc p fname = some f →
      ((lookupFunc p2 fname).map (fun g => g.HasComm) = some true) ∧
      (∀ n g g2, lookupFunc p n = some g → lookupFunc p2 n = some g2 →
        g.HasComm = true → g2.HasComm = true) := by
  intro fuel p p2 fname f hmain hlf
  cases hgo : findEmptyFunc fuel p [] fname with
  | none => simp [findEmptyFuncMain, hgo] at hmain
  | some pr =>
    obtain ⟨pR, kR⟩ := pr
    simp only [findEmptyFuncMain, hgo, Option.some.injEq] at hmain
    subst hmain
    have hinv := findEmptyFunc_inv fuel p [] fname pR kR hgo
    obtain ⟨fR, hfR, _⟩ := (lookupFunc_funcsLE hinv.1 fname).2 f hlf
    constructor
    · rw [lookupFunc_setHasComm_self true hfR]
      rfl
    · intro n g g2 hg hg2 hcomm
      have hLE2 : funcsLE p (setHasComm pR fname true) :=
        funcsLE_trans hinv.1 (funcsLE_setHasComm (fun _ _ _ => rfl))
      obtain ⟨g2x, hg2x, hgle⟩ := (lookupFunc_funcsLE hLE2 n).2 g hg
      rw [hg2] at hg2x
      cases hg2x
      exact hgle.2.2.2.2 hcomm

/-- C2 witness: a one-function program whose root starts with
`HasComm = false` and ends marked true. -/
theorem c2_witness :
    (lookupFunc [(⟨"m", [], [], true, 7⟩ : Function)] "m").map
      (fun g => g.HasComm) = some true :=
  (c2_root_forced_true_and_hascomm_monotone 2 [⟨"m", [], [], false, 7⟩]
    [⟨"m", [], [], true, 7⟩] "m" ⟨"m", [], [], false, 7⟩ rfl rfl).1

/-- C3: `HasComm` is sticky: `AddStmts` never lowers it, and neither a
`findEmptyFunc` pass nor a root-driven `findEmptyFuncMain` run lowers
the `HasComm` of any function of the program. -/
theorem c3_hascomm_is_sticky :
    (∀ (f : Function) (stmts : List Statement),
      f.HasComm = true → (f.AddStmts stmts).HasComm = true) ∧
    (∀ (fuel : Nat) (p : List Function) (known : Known) (fname : String)
       (p2 : List Function) (known2 : Known) (n : String) (g g2 : Function),
      findEmptyFunc fuel p known fname = some (p2, known2) →
      lookupFunc p n = some g → lookupFunc p2 n = some g2 →
      g.HasComm = true → g2.HasComm = true) ∧
    (∀ (fuel : Nat) (p : List Function) (fname : String) (p2 : List Function)
       (n : String) (g g2 : Function),
      findEmptyFuncMain fuel p fname = some p2 →
      lookupFunc p n = some g → lookupFunc p2 n = some g2 →
      g.HasComm = true → g2.HasComm = true) := by
  refine ⟨?_, ?_, ?_⟩
  · intro f stmts h
    unfold Function.AddStmts
    split
    · exact h
    · split
      · rfl
      · exact h
  · intro fuel p known fname p2 known2 n g g2 heq hg hg2 hcomm
    have hinv := findEmptyFunc_inv fuel p known fname p2 known2 heq
    obtain ⟨g2x, hg2x, hgle⟩ := (lookupFunc_funcsLE hinv.1 n).2 g hg
    rw [hg2] at hg2x
    cases hg2x
    exact hgle.2.2.2.2 hcomm
  · intro fuel p fname p2 n g g2 hmain hg hg2 hcomm
    cases hgo : findEmptyFunc fuel p [] fname with
    | none => simp [findEmptyFuncMain, hgo] at hmain
    | some pr =>
      obtain ⟨pR, kR⟩ := pr
      simp only [findEmptyFuncMain, hgo, Option.some.injEq] at hmain
      subst hmain
      have hinv := findEmptyFunc_inv fuel p [] fname pR kR hgo
      have hLE2 : funcsLE p (setHasComm pR fname true) :=
        funcsLE_trans hinv.1 (funcsLE_setHasComm (fun _ _ _ => rfl))
      obtain ⟨g2x, hg2x, hgle⟩ := (lookupFunc_funcsLE hLE2 n).2 g hg
      rw [hg2] at hg2x
      cases hg2x
      exact hgle.2.2.2.2 hcomm

/-- C3 witness: a function with `HasComm = true` keeps it through
`AddStmts`, and through a root-driven analysis run. -/
theorem c3_witness :
    (Function.AddStmts ⟨"g", [], [], true, 5⟩ [Statement.tau]).HasComm = true ∧
    (⟨"h", [], [], true, 1⟩ : Function).HasComm = true :=
  ⟨c3_hascomm_is_sticky.1 ⟨"g", [], [], true, 5⟩ [Statement.tau] rfl,
   c3_hascomm_is_sticky.2.2 2 [⟨"h", [], [], true, 1⟩] "h" [⟨"h", [], [], true, 1⟩]
     "h" ⟨"h", [], [], true, 1⟩ ⟨"h", [], [], true, 1⟩ rfl rfl rfl rfl⟩

/-- C4: the analysis terminates on every program — fuel one larger than
the number of functions always completes, call-graph cycles included —
and a function already recorded in the memo map is never re-entered:
the run returns at once, leaving program and memo untouched. -/
theorem c4_analysis_terminates_and_memoized_not_reentered :
    (∀ (p : List Function) (fname : String),
      (findEmptyFunc (p.length + 1) p [] fname).isSome = true) ∧
    (∀ (fuel : Nat) (p : List Function) (known : Known) (fname : String),
      (klook known fname).isSome = true →
      findEmptyFunc (fuel + 1) p known fname = some (p, known)) := by
  constructor
  · intro p fname
    apply findEmptyFunc_success
    have h : unknownCount p [] ≤ p.length := List.length_filter_le _ _
    omega
  · intro fuel p known fname h
    simp [findEmptyFunc, h]

/-- C4 witness: the two-function cycle `A ↔ B` is analysed to completion
with fuel `3 = length + 1`, and an entry for an already-memoized
function returns immediately with the state unchanged. -/
theorem c4_witness :
    (findEmptyFunc 3
      [⟨"A", [], [Statement.call "B" [] 0], false, 0⟩,
       ⟨"B", [], [Statement.call "A" [] 0], false, 0⟩] [] "A").isSome = true ∧
    findEmptyFunc 1 [⟨"C", [], [], false, 0⟩] [("C", false)] "C" =
      some ([⟨"C", [], [], false, 0⟩], [("C", false)]) :=
  ⟨c4_analysis_terminates_and_memoized_not_reentered.1
      [⟨"A", [], [Statement.call "B" [] 0], false, 0⟩,
       ⟨"B", [], [Statement.call "A" [] 0], false, 0⟩] "A",
   c4_analysis_terminates_and_memoized_not_reentered.2 0
      [⟨"C", [], [], false, 0⟩] [("C", false)] "C" rfl⟩

/-- C9 witness: re-adding the name `a` is dropped, a fresh name `b` is
appended, and the double insertion equals the single one. -/
theorem c9_witness :
    Program.AddFunction ⟨[⟨"a", [], [], false, 0⟩]⟩ ⟨"a", [], [Statement.tau], true, 3⟩ =
      ⟨[⟨"a", [], [], false, 0⟩]⟩ ∧
    (Program.AddFunction ⟨[⟨"a", [], [], false, 0⟩]⟩ ⟨"b", [], [], false, 0⟩).Funcs =
      [⟨"a", [], [], false, 0⟩] ++ [⟨"b", [], [], false, 0⟩] ∧
    (Program.AddFunction (Program.AddFunction ⟨[⟨"a", [], [], false, 0⟩]⟩
        ⟨"a", [], [], true, 1⟩) ⟨"a", [], [], true, 1⟩) =
      Program.AddFunction ⟨[⟨"a", [], [], false, 0⟩]⟩ ⟨"a", [], [], true, 1⟩ :=
  ⟨(c9_addfunction_first_registration_wins ⟨[⟨"a", [], [], false, 0⟩]⟩
      ⟨"a", [], [Statement.tau], true, 3⟩).1 ⟨⟨"a", [], [], false, 0⟩, by simp, rfl⟩,
   (c9_addfunction_first_registration_wins ⟨[⟨"a", [], [], false, 0⟩]⟩
      ⟨"b", [], [], false, 0⟩).2.1 (by
        rintro g hg
        simp at hg
        subst hg
        decide),
   (c9_addfunction_first_registration_wins ⟨[⟨"a", [], [], false, 0⟩]⟩
      ⟨"a", [], [], true, 1⟩).2.2⟩

lemma lookupFunc_none_iff : ∀ (fs : List Function) (n : String),
    lookupFunc fs n = none ↔ ∀ f ∈ fs, f.Name ≠ n := by
  intro fs n
  induction fs with
  | nil => simp [lookupFunc]
  | cons g rest ih =>
    simp only [lookupFunc]
    by_cases hc : g.Name = n
    · rw [if_pos hc]
      constructor
      · intro h; exact absurd h (by simp)
      · intro h; exact absurd hc (h g (List.mem_cons_self g rest))
    · rw [if_neg hc, ih]
      constructor
      · intro h f hf
        rcases List.mem_cons.mp hf with heq | hf2
        · subst heq; exact hc
        · exact h f hf2
      · intro h f hf
        exact h f (List.mem_cons_of_mem _ hf)

lemma names_deadcallRemove (q : Program) :
    (deadcallRemove q).Funcs.map (fun g => g.Name) = q.Funcs.map (fun g => g.Name) := by
  simp only [deadcallRemove, List.map_map]
  rfl

lemma noDeadCalls_deadcallRemove (q : Program) : noDeadCalls (deadcallRemove q) = true := by
  simp only [noDeadCalls, List.all_eq_true]
  intro f hf
  rw [names_deadcallRemove]
  simp only [deadcallRemove, List.mem_map] at hf
  obtain ⟨f0, hf0, rfl⟩ := hf
  simp only [List.all_eq_true]
  intro s hs
  exact (List.mem_filter.mp hs).2

/-- C6: `SimplifyProgram` runs tau-function reduction excluding the root
and then unused-function removal from the root when a `"main".main`
function exists; with no such function it runs tau-function reduction
with no exclusions and skips unused-function removal; dead-call removal
always runs last, so the simplified program never contains a call/spawn
to a missing function. -/
theorem c6_simplify_pipeline_order :
    ∀ (p : Program),
      ((lookupFunc p.Funcs mainName).isSome = true →
        SimplifyProgram p =
          deadcallRemove
            (unusedRemove (taufuncFind p (taufuncRemoveExcept mainName)) mainName)) ∧
      ((lookupFunc p.Funcs mainName).isSome = false →
        SimplifyProgram p = deadcallRemove (taufuncFind p taufuncRemove)) ∧
      noDeadCalls (SimplifyProgram p) = true := by
  intro p
  refine ⟨?_, ?_, ?_⟩
  · intro h
    obtain ⟨m, hm⟩ := Option.isSome_iff_exists.mp h
    simp [SimplifyProgram, hm]
  · intro h
    cases hx : lookupFunc p.Funcs mainName with
    | some m => rw [hx] at h; simp at h
    | none => simp [SimplifyProgram, hx]
  · unfold SimplifyProgram
    cases hx : lookupFunc p.Funcs mainName with
    | some m => exact noDeadCalls_deadcallRemove _
    | none => exact noDeadCalls_deadcallRemove _

/-- C6 witness: the §8 scenario program (root calling a tau-bodied
`helper`, plus an `orphan` calling a `missing` function) follows the
with-root pipeline, and a rootless program follows the no-root one. -/
theorem c6_witness :
    SimplifyProgram
        ⟨[⟨"\"main\".main", [], [Statement.call "helper" [] 0], false, 0⟩,
          ⟨"helper", [], [Statement.tau], false, 0⟩,
          ⟨"orphan", [], [Statement.call "missing" [] 0], false, 0⟩]⟩ =
      deadcallRemove (unusedRemove (taufuncFind
        ⟨[⟨"\"main\".main", [], [Statement.call "helper" [] 0], false, 0⟩,
          ⟨"helper", [], [Statement.tau], false, 0⟩,
          ⟨"orphan", [], [Statement.call "missing" [] 0], false, 0⟩]⟩
        (taufuncRemoveExcept mainName)) mainName) ∧
    SimplifyProgram ⟨[⟨"a", [], [], false, 0⟩]⟩ =
      deadcallRemove (taufuncFind ⟨[⟨"a", [], [], false, 0⟩]⟩ taufuncRemove) ∧
    noDeadCalls (SimplifyProgram ⟨[⟨"a", [], [], false, 0⟩]⟩) = true :=
  ⟨(c6_simplify_pipeline_order _).1 rfl,
   (c6_simplify_pipeline_order _).2.1 rfl,
   (c6_simplify_pipeline_order _).2.2⟩

/-- C7: an annotated render of a program that has its root returns the
rendered text exactly when the annotation registry ends empty, and when
annotations are left unconsumed it is instead the fatal outcome, which
reports the full list of unconsumed annotation values. -/
theorem c7_unconsumed_annotations_are_fatal :
    ∀ (p : Program) (ps : Properties) (mainF : Function),
      lookupFunc p.Funcs mainName = some mainF →
      ((∃ s, Program.PrintWithProperties p ps = some (Except.ok s)) ↔
        (annotatedRemainder p ps mainF).IsEmpty = true) ∧
      ((annotatedRemainder p ps mainF).IsEmpty = false →
        Program.PrintWithProperties p ps =
          some (Except.error (Properties.Values (annotatedRemainder p ps mainF)))) := by
  intro p ps mainF hlk
  have hunfold : Program.PrintWithProperties p ps =
      (if (annotatedRemainder p ps mainF).IsEmpty = true
       then some (Except.ok ((mainF.PrintWithProperties ps).1 ++
         (printLoop p.Funcs (mainF.PrintWithProperties ps).2.2).1))
       else some (Except.error (Properties.Values (annotatedRemainder p ps mainF)))) := by
    simp only [Program.PrintWithProperties, hlk, annotatedRemainder]
  constructor
  · constructor
    · rintro ⟨s, hs⟩
      rw [hunfold] at hs
      by_cases hemp : (annotatedRemainder p ps mainF).IsEmpty = true
      · exact hemp
      · rw [if_neg hemp] at hs
        simp at hs
    · intro hemp
      rw [hunfold, if_pos hemp]
      exact ⟨_, rfl⟩
  · intro hemp
    rw [hunfold, if_neg (by simp [hemp])]

/-- C7 witness: rendering a one-function program against an empty
registry consumes everything and returns the text. -/
theorem c7_witness :
    ∃ s, Program.PrintWithProperties
      ⟨[⟨"\"main\".main", [], [Statement.tau], false, 0⟩]⟩ [] =
        some (Except.ok s) :=
  ((c7_unconsumed_annotations_are_fatal
      ⟨[⟨"\"main\".main", [], [Statement.tau], false, 0⟩]⟩ []
      ⟨"\"main\".main", [], [Statement.tau], false, 0⟩ rfl).1).mpr rfl

/-- C10: the annotated render discards the root lookup's success flag,
so on a program with no function named `"main".main` it dereferences a
nil pointer and crashes (the undefined `none` outcome); whenever such a
function exists the render produces an outcome. -/
theorem c10_annotated_render_requires_main :
    ∀ (p : Program) (ps : Properties),
      ((∀ f ∈ p.Funcs, f.Name ≠ mainName) →
        Program.PrintWithProperties p ps = none) ∧
      ((∃ f ∈ p.Funcs, f.Name = mainName) →
        (Program.PrintWithProperties p ps).isSome = true) := by
  intro p ps
  constructor
  · intro h
    have hlk : lookupFunc p.Funcs mainName = none := (lookupFunc_none_iff _ _).mpr h
    simp [Program.PrintWithProperties, hlk]
  · rintro ⟨f, hf, hn⟩
    cases hlk : lookupFunc p.Funcs mainName with
    | none => exact absurd hn ((lookupFunc_none_iff _ _).mp hlk f hf)
    | some m =>
      simp only [Program.PrintWithProperties, hlk]
      split <;> rfl

/-- C10 witness: a rootless program crashes, a rooted one renders. -/
theorem c10_witness :
    Program.PrintWithProperties ⟨[⟨"f", [], [], false, 0⟩]⟩ [] = none ∧
    (Program.PrintWithProperties
      ⟨[⟨"\"main\".main", [], [Statement.tau], false, 0⟩]⟩ []).isSome = true :=
  ⟨(c10_annotated_render_requires_main ⟨[⟨"f", [], [], false, 0⟩]⟩ []).1
      (by intro f hf; simp at hf; subst hf; decide),
   (c10_annotated_render_requires_main
      ⟨[⟨"\"main\".main", [], [Statement.tau], false, 0⟩]⟩ []).2
      ⟨⟨"\"main\".main", [], [Statement.tau], false, 0⟩, by simp, rfl⟩⟩

end Migo
